import Mathlib

/-!
Verification of the ExamExtract document-ingestion and batched-extraction
pipeline.  JavaScript strings are modelled as `List Char`; the pure control
flow of the TypeScript sources is embedded as Lean functions below, and the
stated properties of the pipeline are proved about those embeddings.
-/

namespace ExamExtract

/-! ## HTML chunking (documentProcessor.ts, chunkHtmlContent) -/

/-- The paragraph-closing delimiter used by the chunker. -/
def pTag : List Char := ['<', '/', 'p', '>']

/-- Embedding of the JavaScript expression on the delimiter literal:
splits a string on every occurrence of the closing paragraph tag,
leftmost-first, returning the substrings between occurrences. -/
def splitParts : List Char → List (List Char)
  | [] => [[]]
  | '<' :: '/' :: 'p' :: '>' :: rest => [] :: splitParts rest
  | c :: rest =>
    match splitParts rest with
    | [] => [[c]]
    | p :: ps => (c :: p) :: ps

/-- Re-attaches the closing paragraph tag to every part except the last,
mirroring the loop body that appends the tag when the index is not the
final split position. -/
def withTags : List (List Char) → List (List Char)
  | [] => []
  | [p] => [p]
  | p :: q :: ps => (p ++ pTag) :: withTags (q :: ps)

/-- The packing loop of the chunker: consumes the tagged parts in order,
accumulating a current chunk, closing it when adding the next part would
exceed the budget, and pushing an oversized lone part as its own chunk. -/
def chunkGo (maxChunkSize : Nat) : List (List Char) → List Char → List (List Char)
  | [], currentChunk => if currentChunk.length > 0 then [currentChunk] else []
  | part :: rest, currentChunk =>
    if currentChunk.length + part.length > maxChunkSize then
      if currentChunk.length > 0 then
        currentChunk :: chunkGo maxChunkSize rest part
      else
        part :: chunkGo maxChunkSize rest []
    else
      chunkGo maxChunkSize rest (currentChunk ++ part)

/-- Embedding of chunkHtmlContent: a document at most the budget long is a
single chunk; otherwise it is split on closing paragraph tags and packed. -/
def chunkHtmlContent (html : List Char) (maxChunkSize : Nat := 30000) :
    List (List Char) :=
  if html.length ≤ maxChunkSize then [html]
  else chunkGo maxChunkSize (withTags (splitParts html)) []

/-- Concrete HTML sample used to exercise the chunker: a 1-char paragraph,
a 2-char paragraph and a trailing unterminated piece. -/
def sampleHtml : List Char := ['a'] ++ pTag ++ ['b', 'b'] ++ pTag ++ ['c']

/-! ## Data model (types.ts) -/

/-- Extracted question record (interface McqData).  In the TypeScript source
choiceE and passage are optional string fields, correctAnswer is a plain
string. -/
structure McqData where
  id : List Char
  question : List Char
  choiceA : List Char
  choiceB : List Char
  choiceC : List Char
  choiceD : List Char
  choiceE : Option (List Char)
  correctAnswer : List Char
  passage : Option (List Char)
deriving DecidableEq

/-- Shape of one element of the parsed model response before
post-processing: the schema requires question and choices A-D; choiceE,
correctAnswer and passage are nullable. -/
structure RawItem where
  question : List Char
  choiceA : List Char
  choiceB : List Char
  choiceC : List Char
  choiceD : List Char
  choiceE : Option (List Char)
  correctAnswer : Option (List Char)
  passage : Option (List Char)
deriving DecidableEq

/-! ## Extraction post-processing (geminiService, analyzeDocumentContent) -/

/-- Embedding of the JavaScript string trim: strips whitespace from both
ends. -/
def jsTrim (s : List Char) : List Char :=
  ((s.dropWhile Char.isWhitespace).reverse.dropWhile Char.isWhitespace).reverse

/-- Character class of the regular expression used on the correct-answer
field: the uppercase letters A through E. -/
def isAnswerLetter (c : Char) : Bool := 'A' ≤ c && c ≤ 'E'

/-- Embedding of the post-processing of the correct-answer field:
a falsy value (absent, null or empty string) maps to the empty string;
otherwise the value is trimmed, upper-cased and every character outside
A-E is removed. -/
def normalizeCorrectAnswer : Option (List Char) → List Char
  | none => []
  | some s =>
    if s.isEmpty then []
    else ((jsTrim s).map Char.toUpper).filter isAnswerLetter

/-- Embedding of the idiom that coerces a falsy optional string field to
an absent one. -/
def jsOrUndefined : Option (List Char) → Option (List Char)
  | none => none
  | some s => if s.isEmpty then none else some s

/-- Embedding of the per-element post-processing map: attach a fresh id,
normalize the optional fields and the correct-answer field; all other
fields are spread through unchanged. -/
def postProcessItem (newId : List Char) (item : RawItem) : McqData :=
  { id := newId
    question := item.question
    choiceA := item.choiceA
    choiceB := item.choiceB
    choiceC := item.choiceC
    choiceD := item.choiceD
    choiceE := jsOrUndefined item.choiceE
    correctAnswer := normalizeCorrectAnswer item.correctAnswer
    passage := jsOrUndefined item.passage }

/-- Concrete raw element whose correct-answer field is the string b) . -/
def rawItemB : RawItem :=
  { question := ['q'], choiceA := ['1'], choiceB := ['2'], choiceC := ['3']
    choiceD := ['4'], choiceE := none
    correctAnswer := some ['b', ')'], passage := none }

/-- Concrete raw element whose correct-answer field is the empty string. -/
def rawItemEmpty : RawItem :=
  { question := ['q'], choiceA := ['1'], choiceB := ['2'], choiceC := ['3']
    choiceD := ['4'], choiceE := none
    correctAnswer := some [], passage := none }

/-- Concrete raw element whose correct-answer field is absent. -/
def rawItemAbsent : RawItem :=
  { question := ['q'], choiceA := ['1'], choiceB := ['2'], choiceC := ['3']
    choiceD := ['4'], choiceE := none
    correctAnswer := none, passage := none }

/-! ## Retry and error classification (generateWithRetry and callers) -/

/-- Embedding of JavaScript String.prototype.includes restricted to what
the code uses: substring containment. -/
def includesSub (needle : List Char) : List Char → Bool
  | [] => needle.isEmpty
  | c :: rest => needle.isPrefixOf (c :: rest) || includesSub needle rest

/-- An error is transient (retried) exactly when its message contains
503 or 429. -/
def isRetryable (e : List Char) : Bool :=
  includesSub ("503".toList) e || includesSub ("429".toList) e

/-- An error is fatal for the per-unit loop exactly when its message
mentions the API key or a missing model. -/
def isFatalError (e : List Char) : Bool :=
  includesSub ("API Key".toList) e || includesSub ("Model not found".toList) e

/-- The message thrown when the API key is missing. -/
def apiKeyMissingMessage : List Char :=
  ("API Key is missing. Please ensure process.env.API_KEY is configured in your environment.").toList

/-- Parsed model response: text is the raw response text, already parsed
into schema elements when present; none models an empty response text. -/
structure ModelResponse where
  text : Option (List RawItem)
deriving DecidableEq

deriving instance DecidableEq for Except

/-- The retry loop of generateWithRetry, recursing on the number of
attempts still available (retries - i, so the source guard i < retries
becomes a positive count and the source test i == retries - 1 becomes a
count of one).  The oracle gives the outcome of the i-th network
attempt.  A success returns immediately; an error on the last available
attempt, or a non-retryable error, is rethrown; otherwise the loop
sleeps 1000 * 2 ^ i ms (recorded in the delays list) and tries again.
An exhausted count corresponds to falling off the source loop
(impossible when retries is positive), returning the undefined value,
modelled as none. -/
def retryGo {α : Type} (oracle : Nat → Except (List Char) α) :
    Nat → Nat → List Nat → List Nat × Except (List Char) (Option α)
  | 0, _, delays => (delays, .ok none)
  | remaining + 1, i, delays =>
    match oracle i with
    | .ok v => (delays, .ok (some v))
    | .error e =>
      if remaining == 0 || !(isRetryable e) then (delays, .error e)
      else retryGo oracle remaining (i + 1) (delays ++ [1000 * 2 ^ i])

/-- Embedding of generateWithRetry: run the retry loop from attempt 0,
returning the performed backoff delays alongside the outcome. -/
def generateWithRetry {α : Type} (oracle : Nat → Except (List Char) α)
    (retries : Nat := 3) : List Nat × Except (List Char) (Option α) :=
  retryGo oracle retries 0 []

/-- Error-handling skeleton of analyzeDocumentContent: a missing API key
throws before any network call; otherwise the model call goes through
generateWithRetry with 3 attempts, an empty response text yields an empty
record list, a parsed response is post-processed element-wise with fresh
ids, and the surrounding try/catch converts every thrown error into an
empty record list. -/
def analyzeDocumentContent (hasApiKey : Bool)
    (oracle : Nat → Except (List Char) ModelResponse)
    (freshIds : Nat → List Char) : Except (List Char) (List McqData) :=
  if hasApiKey = false then .error apiKeyMissingMessage
  else
    match (generateWithRetry oracle 3).2 with
    | .error _ => .ok []
    | .ok none => .ok []
    | .ok (some resp) =>
      match resp.text with
      | none => .ok []
      | some items => .ok (items.mapIdx fun n item => postProcessItem (freshIds n) item)

/-- Concrete attempt oracle: the first attempt fails with a retryable
rate-limit error, every later attempt fails with a non-transient error. -/
def witnessOracle : Nat → Except (List Char) Unit
  | 0 => .error ("http 429".toList)
  | _ => .error ("boom".toList)

/-- Concrete attempt oracle whose only outcome is a non-transient
failure. -/
def failingOracle : Nat → Except (List Char) ModelResponse
  | _ => .error ("boom".toList)

/-- Concrete fresh-id supply for closed evaluations. -/
def sampleIds : Nat → List Char
  | _ => ['u']

/-! ## Generic batching helper (documentProcessor.ts, batchProcess) -/

/-- Embedding of batchProcess: the source loops i over 0, b, 2b, ...,
mapping fn over the slice items[i, i+b) and concatenating the results.
For a positive batch size each step consumes the first b items; the
source loop does not terminate on batch size 0, so the claims below carry
the positivity hypothesis. -/
def batchProcess {T R : Type} (batchSize : Nat) (fn : T → R) : List T → List R
  | [] => []
  | x :: xs =>
    (fn x :: (xs.take (batchSize - 1)).map fn) ++
      batchProcess batchSize fn (xs.drop (batchSize - 1))
termination_by l => l.length
decreasing_by simp [List.length_drop]; omega

/-! ## PDF rasterization (documentProcessor.ts, processPdfToImages) -/

/-- Abstract rendered page: hasContext records whether the drawing
surface (2d canvas context) was acquired, encoded is the base64 payload
the page encodes to when it renders. -/
structure PdfPage where
  hasContext : Bool
  encoded : List Char
deriving DecidableEq

/-- Embedding of the per-page closure renderPage: a page whose surface
fails to acquire yields the empty string, otherwise the encoded image. -/
def renderPage (p : PdfPage) : List Char :=
  if p.hasContext then p.encoded else []

/-- Embedding of processPdfToImages: render all pages in parallel batches
of 4, then drop the empty entries. -/
def processPdfToImages (pages : List PdfPage) : List (List Char) :=
  (batchProcess 4 renderPage pages).filter fun img => 0 < img.length

/-- Concrete three-page document whose middle page fails to acquire a
surface. -/
def samplePages : List PdfPage :=
  [{ hasContext := true, encoded := ['x'] },
   { hasContext := false, encoded := ['y'] },
   { hasContext := true, encoded := ['z'] }]

/-! ## Per-unit extraction loop (App.tsx, handleProcess) -/

/-- Embedding of the sequential per-unit loop of handleProcess: each unit
either returns records (appended to the accumulator when non-empty) or
throws; a fatal error (API key / model availability class) is rethrown
and aborts the loop, any other error is logged and skipped. -/
def handleProcessGo : List (Except (List Char) (List McqData)) → List McqData →
    Except (List Char) (List McqData)
  | [], acc => .ok acc
  | u :: rest, acc =>
    match u with
    | .ok pageData =>
      handleProcessGo rest (if 0 < pageData.length then acc ++ pageData else acc)
    | .error e => if isFatalError e then .error e else handleProcessGo rest acc

/-- The per-unit loop started with an empty accumulator. -/
def handleProcess (units : List (Except (List Char) (List McqData))) :
    Except (List Char) (List McqData) :=
  handleProcessGo units []

/-- The record lists contributed by the non-failing units, in order. -/
def successfulRecords (units : List (Except (List Char) (List McqData))) :
    List (List McqData) :=
  units.filterMap fun u =>
    match u with
    | .ok d => some d
    | .error _ => none

/-- A concrete record used in closed evaluations of the orchestrator. -/
def sampleRecord (n : Nat) : McqData :=
  { id := [Char.ofNat (97 + n)], question := ['q'], choiceA := ['1']
    choiceB := ['2'], choiceC := ['3'], choiceD := ['4']
    choiceE := none, correctAnswer := ['A'], passage := none }

/-- Concrete unit outcomes: unit 2 of 3 fails with a non-fatal error. -/
def sampleUnits : List (Except (List Char) (List McqData)) :=
  [.ok [sampleRecord 0], .error ("boom".toList), .ok [sampleRecord 1, sampleRecord 2]]

/-! ## Batched orchestrator with cancellation (App.tsx, processGroups) -/

/-- Group size used when bundling content units (PAGES_PER_CONTEXT). -/
def PAGES_PER_CONTEXT : Nat := 4

/-- Wave width of the dispatch loop (CONCURRENT_REQUESTS). -/
def CONCURRENT_REQUESTS : Nat := 3

/-- Embedding of chunkArray: slice the list into consecutive runs of the
given size (the source loop steps the index by size; positivity is
assumed as for batchProcess). -/
def chunkArray {α : Type} (size : Nat) : List α → List (List α)
  | [] => []
  | x :: xs => (x :: xs.take (size - 1)) :: chunkArray size (xs.drop (size - 1))
termination_by l => l.length
decreasing_by simp [List.length_drop]; omega

/-- Embedding of the dispatch loop of processGroups.  Each group is
identified with the records its extraction call returns (the extraction
client of this version never rejects).  The cooperative cancel flag is a
function of an abstract check-point counter: the loop reads it once at
the top of every wave (before dispatching) and once after the wave
settles (before appending); a set flag breaks the loop.  The result is
the number of groups dispatched and the final accumulated record
store. -/
def processGroupsGo (flag : Nat → Bool) :
    List (List (List McqData)) → Nat → List McqData → Nat → Nat × List McqData
  | [], _, acc, dispatched => (dispatched, acc)
  | w :: rest, t, acc, dispatched =>
    if flag t then (dispatched, acc)
    else if flag (t + 1) then (dispatched + w.length, acc)
    else processGroupsGo flag rest (t + 2) (acc ++ w.flatten) (dispatched + w.length)

/-- Embedding of processGroups: split the groups into waves of
CONCURRENT_REQUESTS and run the dispatch loop from an empty store. -/
def processGroups (flag : Nat → Bool) (groups : List (List McqData)) :
    Nat × List McqData :=
  processGroupsGo flag (chunkArray CONCURRENT_REQUESTS groups) 0 [] 0

/-- A cancel flag that is set from check-point 2 on. -/
def sampleFlag (t : Nat) : Bool := 2 ≤ t

/-! ## Result store update (App.tsx, handleUpdateResult) -/

/-- The editable fields of a record (keyof McqData). -/
inductive McqField where
  | id
  | question
  | choiceA
  | choiceB
  | choiceC
  | choiceD
  | choiceE
  | correctAnswer
  | passage
deriving DecidableEq

/-- Embedding of the computed-key record spread: write the given string
value into the named field, leaving the rest of the record unchanged. -/
def setField (r : McqData) (f : McqField) (v : List Char) : McqData :=
  match f with
  | .id => { r with id := v }
  | .question => { r with question := v }
  | .choiceA => { r with choiceA := v }
  | .choiceB => { r with choiceB := v }
  | .choiceC => { r with choiceC := v }
  | .choiceD => { r with choiceD := v }
  | .choiceE => { r with choiceE := some v }
  | .correctAnswer => { r with correctAnswer := v }
  | .passage => { r with passage := some v }

/-- Field read-back used to state the frame property of setField. -/
def getField (r : McqData) : McqField → Option (List Char)
  | .id => some r.id
  | .question => some r.question
  | .choiceA => some r.choiceA
  | .choiceB => some r.choiceB
  | .choiceC => some r.choiceC
  | .choiceD => some r.choiceD
  | .choiceE => r.choiceE
  | .correctAnswer => some r.correctAnswer
  | .passage => r.passage

/-- Embedding of handleUpdateResult: map over the store, rewriting the
named field of every record whose id equals the target id. -/
def handleUpdateResult (results : List McqData) (targetId : List Char)
    (f : McqField) (v : List Char) : List McqData :=
  results.map fun item => if item.id = targetId then setField item f v else item

theorem splitParts_ne_nil (l : List Char) : splitParts l ≠ [] := by
  induction l using splitParts.induct with
  | case1 => simp [splitParts.eq_1]
  | case2 rest ih => simp [splitParts.eq_2]
  | case3 c rest h heq ih => simp [splitParts.eq_3 c rest h, heq]
  | case4 c rest h p ps heq ih => simp [splitParts.eq_3 c rest h, heq]

theorem withTags_flatten_cons (x p : List Char) (ps : List (List Char)) :
    (withTags ((x ++ p) :: ps)).flatten = x ++ (withTags (p :: ps)).flatten := by
  cases ps with
  | nil => simp [withTags]
  | cons q ps' => simp [withTags]

theorem withTags_splitParts_flatten (l : List Char) :
    (withTags (splitParts l)).flatten = l := by
  induction l using splitParts.induct with
  | case1 => simp [splitParts.eq_1, withTags]
  | case2 rest ih =>
    rw [splitParts.eq_2]
    rcases hsp : splitParts rest with _ | ⟨p, ps⟩
    · exact absurd hsp (splitParts_ne_nil rest)
    · rw [hsp] at ih
      rw [show (withTags ([] :: p :: ps)) = ([] ++ pTag) :: withTags (p :: ps) from rfl]
      simp only [List.flatten_cons]
      rw [show ((withTags (p :: ps)).flatten = rest) from ih]
      rfl
  | case3 c rest h heq ih =>
    exact absurd heq (splitParts_ne_nil rest)
  | case4 c rest h p ps heq ih =>
    rw [splitParts.eq_3 c rest h, heq]
    rw [heq] at ih
    show (withTags ((c :: p) :: ps)).flatten = c :: rest
    rw [show (c :: p) = [c] ++ p from rfl, withTags_flatten_cons [c] p ps, ih]
    rfl

theorem chunkGo_flatten (m : Nat) (ps : List (List Char)) (cur : List Char) :
    (chunkGo m ps cur).flatten = cur ++ ps.flatten := by
  induction ps generalizing cur with
  | nil =>
    rw [chunkGo]
    split
    · simp
    · rename_i hlen
      have : cur = [] := by
        cases cur with
        | nil => rfl
        | cons a l => simp at hlen
      simp [this]
  | cons part rest ih =>
    rw [chunkGo]
    split
    · split
      · simp [ih part]
      · rename_i hlen
        have hc : cur = [] := by
          cases cur with
          | nil => rfl
          | cons a l => simp at hlen
        simp [hc, ih []]
    · rw [ih (cur ++ part)]
      simp

/-- C3: for every HTML string and every maximum chunk size (in particular
every positive one), concatenating the chunks returned by chunkHtmlContent
in order reconstructs the original HTML string exactly. -/
theorem chunkHtmlContent_flatten (html : List Char) (maxChunkSize : Nat) :
    (chunkHtmlContent html maxChunkSize).flatten = html := by
  rw [chunkHtmlContent]
  split
  · simp
  · rw [chunkGo_flatten, withTags_splitParts_flatten]
    rfl

theorem chunkGo_mem (m : Nat) (parts : List (List Char)) :
    ∀ (ps : List (List Char)) (cur : List Char) (cs : List (List Char)),
      cur = cs.flatten → cs ++ ps <:+: parts →
      (m < cur.length → ∃ p, cs = [p]) →
      ∀ chunk ∈ chunkGo m ps cur,
        ∃ ds, ds <:+: parts ∧ chunk = ds.flatten ∧
          (m < chunk.length → ∃ p, ds = [p]) := by
  intro ps
  induction ps with
  | nil =>
    intro cur cs hcur hinf hover chunk hmem
    rw [chunkGo] at hmem
    split at hmem
    · have hc : chunk = cur := by simpa using hmem
      subst hc
      obtain ⟨s, t, hst⟩ := hinf
      exact ⟨cs, ⟨s, t, by rw [← hst]; simp⟩, hcur, hover⟩
    · simp at hmem
  | cons part rest ih =>
    intro cur cs hcur hinf hover chunk hmem
    rw [chunkGo] at hmem
    by_cases hbig : cur.length + part.length > m
    · rw [if_pos hbig] at hmem
      by_cases hpos : cur.length > 0
      · rw [if_pos hpos] at hmem
        rcases List.mem_cons.mp hmem with hc | hc
        · subst hc
          obtain ⟨s, t, hst⟩ := hinf
          exact ⟨cs, ⟨s, part :: rest ++ t, by rw [← hst]; simp⟩, hcur, hover⟩
        · obtain ⟨s, t, hst⟩ := hinf
          exact ih part [part] (by simp) ⟨s ++ cs, t, by rw [← hst]; simp⟩
            (fun _ => ⟨part, rfl⟩) chunk hc
      · rw [if_neg hpos] at hmem
        rcases List.mem_cons.mp hmem with hc | hc
        · obtain ⟨s, t, hst⟩ := hinf
          exact ⟨[part], ⟨s ++ cs, rest ++ t, by rw [← hst]; simp⟩, by simp [hc],
            fun _ => ⟨part, rfl⟩⟩
        · obtain ⟨s, t, hst⟩ := hinf
          exact ih [] [] rfl ⟨s ++ cs ++ [part], t, by rw [← hst]; simp⟩
            (by simp) chunk hc
    · rw [if_neg hbig] at hmem
      obtain ⟨s, t, hst⟩ := hinf
      refine ih (cur ++ part) (cs ++ [part]) (by simp [hcur])
        ⟨s, t, by rw [← hst]; simp⟩ (fun hm => ?_) chunk hmem
      exfalso
      rw [List.length_append] at hm
      omega

/-- C4: every chunk returned by chunkHtmlContent is the concatenation of a
contiguous run of whole tagged paragraph parts, so paragraphs are never
split across chunks, and a chunk longer than the configured maximum is
necessarily a single oversized paragraph part. -/
theorem chunkHtmlContent_size (html : List Char) (maxChunkSize : Nat)
    (chunk : List Char) (hmem : chunk ∈ chunkHtmlContent html maxChunkSize) :
    ∃ ds, ds <:+: withTags (splitParts html) ∧ chunk = ds.flatten ∧
      (maxChunkSize < chunk.length → ∃ p, ds = [p]) := by
  rw [chunkHtmlContent] at hmem
  split at hmem
  · rename_i hle
    have hc : chunk = html := by simpa using hmem
    refine ⟨withTags (splitParts html), ⟨[], [], by simp⟩, ?_, ?_⟩
    · rw [hc, withTags_splitParts_flatten]
    · intro hm
      rw [hc] at hm
      exact absurd hm (by omega)
  · exact chunkGo_mem maxChunkSize (withTags (splitParts html))
      (withTags (splitParts html)) [] [] rfl ⟨[], [], by simp⟩ (by simp) chunk hmem

/-- Witness for C4 at a concrete document and budget: the oversized first
chunk of sampleHtml under budget 3 is a single paragraph part. -/
theorem chunkHtmlContent_size_witness :
    ∃ ds, ds <:+: withTags (splitParts sampleHtml) ∧ (['a'] ++ pTag) = ds.flatten ∧
      (3 < (['a'] ++ pTag).length → ∃ p, ds = [p]) :=
  chunkHtmlContent_size sampleHtml 3 (['a'] ++ pTag) (by decide)

theorem batchProcess_map {T R : Type} (batchSize : Nat) (fn : T → R)
    (items : List T) : batchProcess batchSize fn items = items.map fn := by
  induction items using batchProcess.induct batchSize fn with
  | case1 => simp [batchProcess]
  | case2 x xs ih =>
    rw [batchProcess, ih, List.cons_append, ← List.map_append,
      List.take_append_drop, List.map_cons]

/-- C9: for every input list, every batch size at least 1 and every
per-item function, batchProcess returns the plain sequential map: one
result per input item, in input order, independent of the batch size. -/
theorem batchProcess_eq_map {T R : Type} (batchSize : Nat) (fn : T → R)
    (items : List T) (hpos : 1 ≤ batchSize) :
    batchProcess batchSize fn items = items.map fn :=
  batchProcess_map batchSize fn items

/-- Witness for C9 at batch size 2 on a five-element list. -/
theorem batchProcess_eq_map_witness :
    batchProcess 2 (fun n => n + 1) [1, 2, 3, 4, 5] =
      [1, 2, 3, 4, 5].map (fun n => n + 1) :=
  batchProcess_eq_map 2 (fun n => n + 1) [1, 2, 3, 4, 5] (by decide)

theorem filter_map_renderPage (pages : List PdfPage)
    (hne : ∀ p ∈ pages, p.hasContext = true → p.encoded ≠ []) :
    ((pages.map renderPage).filter fun img => 0 < img.length) =
      (pages.filter fun p => p.hasContext).map fun p => p.encoded := by
  induction pages with
  | nil => rfl
  | cons p ps ih =>
    have ihp := ih fun q hq hc => hne q (List.mem_cons_of_mem p hq) hc
    by_cases hc : p.hasContext = true
    · have henc : p.encoded ≠ [] := hne p (List.mem_cons_self p ps) hc
      have hlen : 0 < p.encoded.length := List.length_pos.mpr henc
      simp [renderPage, hc, hlen, ihp]
    · simp [renderPage, hc, ihp]

/-- C7: rasterization yields at most one image per page, in page order:
assuming every page that acquires a drawing surface encodes to a
non-empty payload, the output is exactly the encoded payloads of the
pages whose surface was acquired, in document order, so its length is at
most the page count and the only missing entries are the filtered-out
empty results of pages whose surface acquisition failed, which do not
abort the rest of the document. -/
theorem processPdfToImages_spec (pages : List PdfPage)
    (hne : ∀ p ∈ pages, p.hasContext = true → p.encoded ≠ []) :
    processPdfToImages pages =
      (pages.filter fun p => p.hasContext).map (fun p => p.encoded) ∧
    (processPdfToImages pages).length ≤ pages.length := by
  have h1 : processPdfToImages pages =
      (pages.filter fun p => p.hasContext).map fun p => p.encoded := by
    rw [processPdfToImages, batchProcess_map 4 renderPage pages]
    exact filter_map_renderPage pages hne
  refine ⟨h1, ?_⟩
  rw [h1, List.length_map]
  exact List.length_filter_le _ _

/-- Witness for C7 on a three-page document whose middle page fails to
acquire a surface. -/
theorem processPdfToImages_spec_witness :
    processPdfToImages samplePages =
      (samplePages.filter fun p => p.hasContext).map (fun p => p.encoded) ∧
    (processPdfToImages samplePages).length ≤ samplePages.length :=
  processPdfToImages_spec samplePages (by decide)

/-- Counterexample to C1 as stated: the raw correct-answer value ab
normalizes to the two-letter string AB, which is neither the empty
string nor a single letter. -/
theorem normalizeCorrectAnswer_not_single :
    normalizeCorrectAnswer (some ['a', 'b']) = ['A', 'B'] ∧
    ¬(normalizeCorrectAnswer (some ['a', 'b']) = [] ∨
      (normalizeCorrectAnswer (some ['a', 'b'])).length = 1) := by
  decide

theorem normalizeCorrectAnswer_chars (raw : Option (List Char)) (c : Char)
    (hc : c ∈ normalizeCorrectAnswer raw) : 'A' ≤ c ∧ c ≤ 'E' := by
  cases raw with
  | none => simp [normalizeCorrectAnswer] at hc
  | some s =>
    rw [normalizeCorrectAnswer] at hc
    split at hc
    · simp at hc
    · have := List.of_mem_filter hc
      simpa [isAnswerLetter] using this

/-- C1 amended: after extraction post-processing every character of the
correct-answer field lies in the uppercase range A..E, so a falsy raw
value and a raw value with no A-E characters both collapse to the empty
string; however the result may consist of more than one such letter when
the raw value contains several of them. -/
theorem postProcessItem_correctAnswer_chars (newId : List Char) (item : RawItem)
    (c : Char) (hc : c ∈ (postProcessItem newId item).correctAnswer) :
    'A' ≤ c ∧ c ≤ 'E' :=
  normalizeCorrectAnswer_chars item.correctAnswer c hc

/-- Witness for C1 amended: the letter B produced for the raw value b)
lies in the range A..E. -/
theorem postProcessItem_correctAnswer_chars_witness : 'A' ≤ 'B' ∧ 'B' ≤ 'E' :=
  postProcessItem_correctAnswer_chars ['u'] rawItemB 'B' (by decide)

/-- C8: post-processing maps a raw element whose correct-answer is b) to
a record whose correct-answer is the single letter B, and maps an empty
or absent raw correct-answer to the empty string; the field of the
produced record is a total string, never absent. -/
theorem postProcessItem_examples :
    (postProcessItem ['u'] rawItemB).correctAnswer = ['B'] ∧
    (postProcessItem ['u'] rawItemEmpty).correctAnswer = [] ∧
    (postProcessItem ['u'] rawItemAbsent).correctAnswer = [] := by
  decide

/-- Counterexample to C2 as stated: a non-transient failure of the model
call does not propagate to the caller of the extraction client; the
client returns the success value consisting of the empty record list. -/
theorem analyzeDocumentContent_swallows :
    isRetryable ("boom".toList) = false ∧
    analyzeDocumentContent true failingOracle sampleIds = .ok [] := by
  decide

theorem retryGo_three {α : Type} (oracle : Nat → Except (List Char) α)
    (i : Nat) (delays : List Nat) :
    retryGo oracle 3 i delays =
      match oracle i with
      | .ok v => (delays, .ok (some v))
      | .error e =>
        if (2 : Nat) == 0 || !(isRetryable e) then (delays, .error e)
        else retryGo oracle 2 (i + 1) (delays ++ [1000 * 2 ^ i]) := rfl

theorem retryGo_two {α : Type} (oracle : Nat → Except (List Char) α)
    (i : Nat) (delays : List Nat) :
    retryGo oracle 2 i delays =
      match oracle i with
      | .ok v => (delays, .ok (some v))
      | .error e =>
        if (1 : Nat) == 0 || !(isRetryable e) then (delays, .error e)
        else retryGo oracle 1 (i + 1) (delays ++ [1000 * 2 ^ i]) := rfl

theorem retryGo_one {α : Type} (oracle : Nat → Except (List Char) α)
    (i : Nat) (delays : List Nat) :
    retryGo oracle 1 i delays =
      match oracle i with
      | .ok v => (delays, .ok (some v))
      | .error e =>
        if (0 : Nat) == 0 || !(isRetryable e) then (delays, .error e)
        else retryGo oracle 0 (i + 1) (delays ++ [1000 * 2 ^ i]) := rfl

/-- C2 amended: with 3 attempts, a first-attempt success returns at once
with no backoff; a non-transient failure is rethrown by the retry helper
immediately, with no retry and no delay; transient (429/503 class)
failures are retried with exponential backoff delays of 1000 then 2000
ms for at most 3 attempts in total, the final outcome being returned or
rethrown as is; and every failure escaping the retry helper is caught by
the extraction client, which returns the empty record list to its caller
instead of propagating the failure. -/
theorem generateWithRetry_policy {α : Type} (oracle : Nat → Except (List Char) α)
    (oracleM : Nat → Except (List Char) ModelResponse) (freshIds : Nat → List Char) :
    (∀ v, oracle 0 = .ok v → generateWithRetry oracle 3 = ([], .ok (some v))) ∧
    (∀ e, oracle 0 = .error e → isRetryable e = false →
      generateWithRetry oracle 3 = ([], .error e)) ∧
    (∀ e0 v, oracle 0 = .error e0 → isRetryable e0 = true → oracle 1 = .ok v →
      generateWithRetry oracle 3 = ([1000], .ok (some v))) ∧
    (∀ e0 e1, oracle 0 = .error e0 → isRetryable e0 = true →
      oracle 1 = .error e1 → isRetryable e1 = false →
      generateWithRetry oracle 3 = ([1000], .error e1)) ∧
    (∀ e0 e1 v, oracle 0 = .error e0 → isRetryable e0 = true →
      oracle 1 = .error e1 → isRetryable e1 = true → oracle 2 = .ok v →
      generateWithRetry oracle 3 = ([1000, 2000], .ok (some v))) ∧
    (∀ e0 e1 e2, oracle 0 = .error e0 → isRetryable e0 = true →
      oracle 1 = .error e1 → isRetryable e1 = true → oracle 2 = .error e2 →
      generateWithRetry oracle 3 = ([1000, 2000], .error e2)) ∧
    (∀ e, (generateWithRetry oracleM 3).2 = .error e →
      analyzeDocumentContent true oracleM freshIds = .ok []) := by
  refine ⟨?_, ?_, ?_, ?_, ?_, ?_, ?_⟩
  · intro v h0
    rw [generateWithRetry, retryGo_three, h0]
  · intro e h0 hr
    rw [generateWithRetry, retryGo_three, h0]
    simp [hr]
  · intro e0 v h0 hr0 h1
    rw [generateWithRetry, retryGo_three, h0]
    simp [hr0, retryGo_two, h1]
  · intro e0 e1 h0 hr0 h1 hr1
    rw [generateWithRetry, retryGo_three, h0]
    simp [hr0, retryGo_two, h1, hr1]
  · intro e0 e1 v h0 hr0 h1 hr1 h2
    rw [generateWithRetry, retryGo_three, h0]
    simp [hr0, retryGo_two, h1, hr1, retryGo_one, h2]
  · intro e0 e1 e2 h0 hr0 h1 hr1 h2
    rw [generateWithRetry, retryGo_three, h0]
    simp [hr0, retryGo_two, h1, hr1, retryGo_one, h2]
  · intro e he
    simp [analyzeDocumentContent, he]

/-- Witness for C2 amended: a transient first failure followed by a
non-transient one performs one backoff delay of 1000 ms and rethrows the
second error; the client converts a rethrown failure into an empty
record list. -/
theorem generateWithRetry_policy_witness :
    generateWithRetry witnessOracle 3 = ([1000], .error ("boom".toList)) ∧
    analyzeDocumentContent true failingOracle sampleIds = .ok [] := by
  constructor
  · exact (generateWithRetry_policy witnessOracle failingOracle sampleIds).2.2.2.1
      ("http 429".toList) ("boom".toList) rfl (by decide) rfl (by decide)
  · exact (generateWithRetry_policy witnessOracle failingOracle sampleIds).2.2.2.2.2.2
      ("boom".toList) (by decide)

theorem handleProcessGo_ok (units : List (Except (List Char) (List McqData)))
    (hnf : ∀ e, Except.error e ∈ units → isFatalError e = false) :
    ∀ acc, handleProcessGo units acc = .ok (acc ++ (successfulRecords units).flatten) := by
  induction units with
  | nil => intro acc; simp [handleProcessGo, successfulRecords]
  | cons u rest ih =>
    intro acc
    have hrest : ∀ e, Except.error e ∈ rest → isFatalError e = false :=
      fun e he => hnf e (List.mem_cons_of_mem u he)
    cases u with
    | ok pageData =>
      rw [handleProcessGo]
      by_cases hp : 0 < pageData.length
      · rw [if_pos hp, ih hrest]
        simp [successfulRecords, List.filterMap_cons]
      · have hnil : pageData = [] := by
          cases pageData with
          | nil => rfl
          | cons a l => simp at hp
        rw [if_neg hp, ih hrest]
        simp [successfulRecords, List.filterMap_cons, hnil]
    | error e =>
      have hf : isFatalError e = false := hnf e (List.mem_cons_self _ _)
      rw [handleProcessGo]
      simp only [hf, Bool.false_eq_true, if_false, ite_false]
      rw [ih hrest]
      simp [successfulRecords, List.filterMap_cons]

/-- C6: when every failing unit's error is non-fatal, the run continues
past each failure, each failing unit contributes zero records, and the
final accumulated store is exactly the concatenation of the record lists
of the non-failing units, so the final record count equals the sum of
the non-failing units' record counts. -/
theorem handleProcess_partial_failure (units : List (Except (List Char) (List McqData)))
    (hnf : ∀ e, Except.error e ∈ units → isFatalError e = false) :
    handleProcess units = .ok (successfulRecords units).flatten ∧
    ((successfulRecords units).flatten).length =
      ((successfulRecords units).map List.length).sum := by
  constructor
  · have h := handleProcessGo_ok units hnf []
    simpa [handleProcess] using h
  · rw [List.length_flatten]

/-- Witness for C6: with unit 2 of 3 failing non-fatally, the run yields
the three records of units 1 and 3. -/
theorem handleProcess_partial_failure_witness :
    handleProcess sampleUnits = .ok (successfulRecords sampleUnits).flatten ∧
    ((successfulRecords sampleUnits).flatten).length =
      ((successfulRecords sampleUnits).map List.length).sum :=
  handleProcess_partial_failure sampleUnits (by
    intro e he
    simp [sampleUnits] at he
    subst he
    decide)

theorem processGroupsGo_halt (flag : Nat → Bool)
    (waves : List (List (List McqData))) (t : Nat) (acc : List McqData)
    (d : Nat) (hset : flag t = true) :
    processGroupsGo flag waves t acc d = (d, acc) := by
  cases waves with
  | nil => rfl
  | cons w rest =>
    rw [processGroupsGo, if_pos hset]

theorem processGroupsGo_grows (flag : Nat → Bool)
    (waves : List (List (List McqData))) :
    ∀ (t : Nat) (acc : List McqData) (d : Nat),
      acc <+: (processGroupsGo flag waves t acc d).2 := by
  induction waves with
  | nil => intro t acc d; exact List.prefix_refl acc
  | cons w rest ih =>
    intro t acc d
    rw [processGroupsGo]
    by_cases h1 : flag t = true
    · rw [if_pos h1]
    · rw [if_neg h1]
      by_cases h2 : flag (t + 1) = true
      · rw [if_pos h2]
      · rw [if_neg h2]
        exact (List.prefix_append acc w.flatten).trans
          (ih (t + 2) (acc ++ w.flatten) (d + w.length))

/-- C5: once the cooperative cancel flag is observed set at a wave
boundary, the dispatch loop dispatches no further group and returns the
accumulated store unchanged; if the flag becomes set while a wave is in
flight, the loop stops at the next boundary having dispatched only that
wave, again keeping the store unchanged; the dispatch loop only ever
appends to the store, so every record accumulated before cancellation
remains; and a run that starts cancelled dispatches nothing and
accumulates nothing. -/
theorem processGroups_cancellation (flag : Nat → Bool)
    (waves : List (List (List McqData))) (w : List (List McqData))
    (t : Nat) (acc : List McqData) (d : Nat) (groups : List (List McqData))
    (hmono : ∀ s, flag s = true → flag (s + 1) = true) :
    (flag t = true → processGroupsGo flag waves t acc d = (d, acc)) ∧
    (flag t = false → flag (t + 1) = true →
      processGroupsGo flag (w :: waves) t acc d = (d + w.length, acc)) ∧
    acc <+: (processGroupsGo flag waves t acc d).2 ∧
    (flag 0 = true → processGroups flag groups = (0, [])) := by
  refine ⟨fun h => processGroupsGo_halt flag waves t acc d h, ?_,
    processGroupsGo_grows flag waves t acc d, fun h0 => ?_⟩
  · intro h1 h2
    rw [processGroupsGo, if_neg (by simp [h1]), if_pos h2]
  · rw [processGroups]
    exact processGroupsGo_halt flag _ 0 [] 0 h0

/-- Witness for C5: under a flag set from check-point 2 on, the loop
observed cancelled at a wave boundary dispatches nothing further and
keeps the accumulated record. -/
theorem processGroups_cancellation_witness :
    processGroupsGo sampleFlag [[[sampleRecord 1]]] 2 [sampleRecord 0] 3 =
      (3, [sampleRecord 0]) :=
  (processGroups_cancellation sampleFlag [[[sampleRecord 1]]] [] 2
    [sampleRecord 0] 3 []
    (by
      intro s hs
      simp [sampleFlag] at hs ⊢
      omega)).1 (by decide)

/-- C10: the field-level update preserves the length (hence positions and
order) of the store, leaves every record whose id differs from the
target unchanged, rewrites exactly the named field of a matching record
to the given value while every other field reads back unchanged, and
leaves the whole store unchanged when no record has the target id. -/
theorem handleUpdateResult_frame (results : List McqData) (targetId : List Char)
    (f : McqField) (v : List Char) :
    (handleUpdateResult results targetId f v).length = results.length ∧
    (∀ i r, results.get? i = some r → r.id ≠ targetId →
      (handleUpdateResult results targetId f v).get? i = some r) ∧
    (∀ i r, results.get? i = some r → r.id = targetId →
      (handleUpdateResult results targetId f v).get? i = some (setField r f v)) ∧
    (∀ r g, g ≠ f → getField (setField r f v) g = getField r g) ∧
    (∀ r, getField (setField r f v) f = some v) ∧
    ((∀ r ∈ results, r.id ≠ targetId) →
      handleUpdateResult results targetId f v = results) := by
  refine ⟨by simp [handleUpdateResult], ?_, ?_, ?_, ?_, ?_⟩
  · intro i r hr hne
    rw [handleUpdateResult, List.get?_map, hr]
    simp [hne]
  · intro i r hr heq
    rw [handleUpdateResult, List.get?_map, hr]
    simp [heq]
  · intro r g hne
    cases f <;> cases g <;>
      first
        | exact absurd rfl hne
        | simp [setField, getField]
  · intro r
    cases f <;> simp [setField, getField]
  · intro hall
    rw [handleUpdateResult]
    have hid : ∀ item ∈ results,
        (if item.id = targetId then setField item f v else item) = id item := by
      intro item him
      rw [if_neg (hall item him)]
      rfl
    calc results.map (fun item => if item.id = targetId then setField item f v else item)
        = results.map id := List.map_congr_left hid
      _ = results := List.map_id results

/-- Witness for C10: updating the question of the first record leaves the
second, non-matching record untouched. -/
theorem handleUpdateResult_frame_witness :
    (handleUpdateResult [sampleRecord 0, sampleRecord 1] (sampleRecord 0).id
      McqField.question ['n']).get? 1 = some (sampleRecord 1) :=
  (handleUpdateResult_frame [sampleRecord 0, sampleRecord 1] (sampleRecord 0).id
    McqField.question ['n']).2.1 1 (sampleRecord 1) (by decide) (by decide)

end ExamExtract
